import Mathlib

/-!
Verification development for ufo2fdk's kern feature writer and glyph-name
legalization (`Lib/ufo2fdk/kernFeatureWriter.py`, `Lib/ufo2fdk/makeotfParts.py`).

Python data structures are shallowly embedded as follows:

* `str` becomes `String`; slicing/`len` work on `String.data` (code points),
  matching Python's code-point semantics.
* `dict` becomes an association list `List (k × v)` kept in insertion order;
  `dictInsert` replaces the value in place when the key exists (Python keeps
  the original position on update) and appends otherwise; `.items()` is the
  list itself.
* `set` becomes a `List` used only through membership.
* Code that can raise (`KeyError`, `IndexError` from `s[0]` on an empty
  string, failing `assert`) returns `Option`, with `none` marking the raise.
* The fixed-point-free recursions of the uniquifiers are given explicit fuel;
  the entry points pass enough fuel that the fuel-exhaustion branch is
  unreachable before the source's own `assert` bound fires, so the `Option`
  results agree with the Python semantics exactly.
* `unicodedata.normalize("NFKD", s)` is an external library call; it is
  abstracted as a function parameter `nfkd : String → String` (on ASCII
  inputs it is the identity, which concrete instances use).
-/

namespace Ufo2Fdk

/-! ## Generic string / list utilities mirroring the Python builtins used -/

/-- Python `s[:n]` (by code points). -/
def strTake (s : String) (n : Nat) : String :=
  String.mk (s.data.take n)

/-- Python `s[n:]` (by code points). -/
def strDrop (s : String) (n : Nat) : String :=
  String.mk (s.data.drop n)

/-- Python `len(s)` (by code points). -/
def strLen (s : String) : Nat :=
  s.data.length

/-- Helper for `strStartsWith` (second list is the candidate head). -/
def strStartsWithGo : List Char → List Char → Bool
  | _, [] => true
  | [], _ :: _ => false
  | a :: as, b :: bs => a = b && strStartsWithGo as bs

/-- Python `s.startswith(p)`. -/
def strStartsWith (s p : String) : Bool :=
  strStartsWithGo s.data p.data

/-- Python `sep.join(xs)`. -/
def joinWith (sep : String) : List String → String
  | [] => ""
  | [x] => x
  | x :: y :: rest => x ++ sep ++ joinWith sep (y :: rest)

/-- Python `<` on single characters (code-point order). -/
def charLt (a b : Char) : Bool :=
  a.toNat < b.toNat

/-- Lexicographic order lifted from an element order, as Python compares
sequences (strings, tuples, lists). -/
def lexLt (lt : α → α → Bool) : List α → List α → Bool
  | [], [] => false
  | [], _ :: _ => true
  | _ :: _, [] => false
  | a :: as, b :: bs => if lt a b then true else if lt b a then false else lexLt lt as bs

/-- Python `<` on strings. -/
def strLt (a b : String) : Bool :=
  lexLt charLt a.data b.data

/-- Insert into a list sorted by the strict order `lt`, after all elements
not greater than the new one (this is what makes the sort stable, as
Python's `sorted` is). -/
def insertSorted (lt : α → α → Bool) (x : α) : List α → List α
  | [] => [x]
  | a :: l => if lt x a then x :: a :: l else a :: insertSorted lt x l

/-- Stable insertion sort standing in for Python `sorted`. -/
def sortBy (lt : α → α → Bool) : List α → List α
  | [] => []
  | a :: l => insertSorted lt a (sortBy lt l)

/-- Python `sorted` on lists of strings. -/
def sortStr (l : List String) : List String :=
  sortBy strLt l

/-! ## Association lists with Python `dict` semantics -/

/-- `d[k] = v` on a `dict`: replace in place if the key exists (Python keeps
the original insertion position), append otherwise. -/
def dictInsert [DecidableEq κ] (m : List (κ × ν)) (k : κ) (v : ν) : List (κ × ν) :=
  match m with
  | [] => [(k, v)]
  | (k', v') :: rest => if k' = k then (k, v) :: rest else (k', v') :: dictInsert rest k v

/-- `del d[k]` on a `dict`. -/
def dictDelete [DecidableEq κ] (m : List (κ × ν)) (k : κ) : List (κ × ν) :=
  match m with
  | [] => []
  | (k', v') :: rest => if k' = k then rest else (k', v') :: dictDelete rest k

/-- `d.keys()`. -/
def dictKeys (m : List (κ × ν)) : List κ :=
  m.map Prod.fst

/-- First-`some` choice (used to state lookup lemmas about accumulators). -/
def optOr : Option α → Option α → Option α
  | some x, _ => some x
  | none, b => b

/-! ## kernFeatureWriter.py: module constants -/

/-- Source constant `side1Prefix`. -/
def side1Pre : String := "public.kern1."

/-- Source constant `side2Prefix`. -/
def side2Pre : String := "public.kern2."

/-- Source constant `side1FeaPrefix`. -/
def side1FeaPre : String := "@kern1."

/-- Source constant `side2FeaPrefix`. -/
def side2FeaPre : String := "@kern2."

/-- Source constant `groupPrefixLength` (= `len(side1Prefix)`). -/
def groupPrefixLength : Nat := strLen side1Pre

/-- Source constant `classPrefixLength` (= `len(side1FeaPrefix)`). -/
def classPrefixLength : Nat := strLen side1FeaPre

/-- Source constant `_invalidFirstCharacter` of kernFeatureWriter.py. -/
def invalidFirstCharacterK : List Char := ".0123456789".data

/-- Source constant `_validCharacters` of kernFeatureWriter.py. -/
def validCharactersK : List Char :=
  "ABCDEFGHIJKLMNOPQRSTUVWXYZabcdefghijklmnopqrstuvwxyz0123456789._".data

/-! ## kernFeatureWriter.py: class name creator -/

/-- Recursion of `_makeUniqueClassName(name, existing, counter)`.

The source recurses with `counter + 1` and has
`assert len(c) < 31 - classPrefixLength`, i.e. the recursion aborts
(`AssertionError`, modelled `none`) once `counter` reaches `10^23`.  `fuel`
makes the recursion structural; the entry point passes `10^23 + 1`, enough
that the `fuel = 0` branch is unreachable before the assert fires, so this
is exactly the Python function. -/
def makeUniqueClassNameGo (name : String) (existing : List String) :
    Nat → Nat → Option String
  | _, 0 => none
  | counter, fuel + 1 =>
    if counter = 0 then
      if name ∈ existing then makeUniqueClassNameGo name existing 1 fuel
      else some name
    else
      let c := toString counter
      if 31 - classPrefixLength ≤ strLen c then none
      else
        let newName := strTake name (31 - strLen c) ++ c
        if newName ∈ existing then makeUniqueClassNameGo name existing (counter + 1) fuel
        else some newName

/-- Source `_makeUniqueClassName(name, existing)` (with default `counter=0`). -/
def makeUniqueClassName (name : String) (existing : List String) : Option String :=
  makeUniqueClassNameGo name existing 0 (10 ^ 23 + 1)

/-- Source `makeLegalClassName(name, existing)`.

Note: the source computes `_makeUniqueClassName(name, existing)` but does
not bind its result (`name` is returned as built before the call); the call
can still raise, hence the `Option` wrapper around the unchanged `name`. -/
def makeLegalClassName (name : String) (existing : List String) : Option String :=
  -- slice off the prefix
  let pre := strTake name classPrefixLength
  let n1 := strDrop name classPrefixLength
  -- only legal characters
  let n2 := String.mk (n1.data.filter (fun c => c ∈ validCharactersK))
  -- maximum length is 31 - prefix length
  let n3 := strTake n2 (31 - classPrefixLength)
  -- fallback
  let n4 := if n3.data = [] then "noTransPossible" else n3
  -- add the prefix
  let full := pre ++ n4
  -- make sure it is unique (source: result of this call is discarded)
  match makeUniqueClassName full existing with
  | none => none
  | some _ => some full

/-! ## makeotfParts.py: glyph names -/

/-- Source constant `_digits` of makeotfParts.py. -/
def digitsM : List Char := "0123456789".data

/-- Source constant `_validCharacters` of makeotfParts.py. -/
def validCharactersM : List Char :=
  "ABCDEFGHIJKLMNOPQRSTUVWXYZabcdefghijklmnopqrstuvwxyz0123456789_.".data

/-- Source `isLegalGlyphName(glyphName)`.

The source starts with `glyphName[0]`, which raises `IndexError` on the
empty string; that raise is modelled by `none`.  The four checks are pure,
so running them in sequence (as the source does, with early `return False`)
equals the boolean conjunction used here. -/
def isLegalGlyphName (glyphName : String) : Option Bool :=
  match glyphName.data with
  | [] => none
  | c :: _ =>
    some (!(c ∈ digitsM : Bool)
      && !((c = '.' : Bool) && !(glyphName = ".notdef" : Bool))
      && (glyphName.data.length ≤ 31 : Bool)
      && glyphName.data.all (fun ch => ch ∈ validCharactersM))

/-- Recursion of `_makeUniqueGlyphName(glyphName, existing, number)`.

The source recursion always terminates because the candidates
`glyphName.1`, `glyphName.2`, … are pairwise distinct and `existing` is
finite; the entry point passes fuel `existing.length + 1`, which by
pigeonhole makes the fuel-exhaustion branch unreachable (its value is given
the same shape as the real candidates so that shape lemmas hold for free). -/
def makeUniqueGlyphNameGo (glyphName : String) (existing : List String) :
    Nat → Nat → String
  | number, 0 => glyphName ++ "." ++ toString number
  | number, fuel + 1 =>
    let newName := glyphName ++ "." ++ toString number
    if newName ∈ existing then makeUniqueGlyphNameGo glyphName existing (number + 1) fuel
    else newName

/-- Source `_makeUniqueGlyphName(glyphName, existing)` (default `number=1`). -/
def makeUniqueGlyphName (glyphName : String) (existing : List String) : String :=
  makeUniqueGlyphNameGo glyphName existing 1 (existing.length + 1)

/-- Recursion of `_makeUniqueFallbackGlyphName(existing, number)`.

The source has `assert number < 100000`; reaching `number = 100000` raises
(modelled `none`).  Entry fuel `100000` means the fuel-exhaustion branch is
unreachable before the assert fires. -/
def makeUniqueFallbackGlyphNameGo (existing : List String) :
    Nat → Nat → Option String
  | _, 0 => none
  | number, fuel + 1 =>
    if 100000 ≤ number then none
    else
      let name := "glyph" ++ toString number
      if name ∈ existing then makeUniqueFallbackGlyphNameGo existing (number + 1) fuel
      else some name

/-- Source `_makeUniqueFallbackGlyphName(existing)` (default `number=1`). -/
def makeUniqueFallbackGlyphName (existing : List String) : Option String :=
  makeUniqueFallbackGlyphNameGo existing 1 100000

/-- Python `hex(v)[2:].zfill(4).upper()` for a natural `v`. -/
def hexUpperPad4 (v : Nat) : String :=
  let ds := Nat.toDigits 16 v
  let ds := if ds.length < 4 then List.replicate (4 - ds.length) '0' ++ ds else ds
  String.mk (ds.map Char.toUpper)

/-- Source `normalizeGlyphName(glyphName, uniValue, existing)`.

`nfkd` abstracts `unicodedata.normalize("NFKD", ·)` (identity on ASCII).
`uniValue` is `Option Nat` (`none` = Python `None`); `if uniValue:` is
falsy for both `None` and `0`.  A `none` result models the `IndexError`
raised by `isLegalGlyphName` on the empty string, or the fallback assert. -/
def normalizeGlyphName (nfkd : String → String) (glyphName : String)
    (uniValue : Option Nat) (existing : List String) : Option String :=
  -- remove illegal characters
  let g0 := String.mk ((nfkd glyphName).data.filter (fun c => c ∈ validCharactersM))
  -- no new name: quickly try to apply the adobe standard
  let g1 :=
    if g0.data = [] then
      match uniValue with
      | some v =>
        if v ≠ 0 then
          (if 0 < v ∧ v < 0xFFFF then "uni" else "u") ++ hexUpperPad4 v
        else g0
      | none => g0
    else g0
  -- hit test
  let g2 := if g1 ∈ existing then makeUniqueGlyphName g1 existing else g1
  -- test for validity, then fallback
  match isLegalGlyphName g2 with
  | none => none
  | some true => some g2
  | some false => makeUniqueFallbackGlyphName existing

/-! ## kernFeatureWriter.py: the writer pipeline

The `KernFeatureWriter` object is modelled as a `Font` input, a `Writer`
state produced by `KernFeatureWriter.__init__` (`mkWriter`), and the
`write` method over that state.  Python `dict`s are association lists in
insertion order (see the header comment). -/

/-- The font data consumed by the writer: glyph-name membership
(`glyphName in font`), `font.groups` and `font.kerning` as insertion-ordered
mappings. -/
structure Font where
  glyphs : List String
  groups : List (String × List String)
  kerning : List ((String × String) × Int)
  deriving DecidableEq

/-- One iteration step of `getGroups`: filter the contents to glyphs in the
font, skip when empty, store under the matching side prefix. -/
def getGroupsStep (font : Font) (acc : List (String × List String) × List (String × List String))
    (e : String × List String) : List (String × List String) × List (String × List String) :=
  let contents := e.2.filter (fun g => g ∈ font.glyphs)
  if contents = [] then acc
  else if strStartsWith e.1 side1Pre then (dictInsert acc.1 e.1 contents, acc.2)
  else if strStartsWith e.1 side2Pre then (acc.1, dictInsert acc.2 e.1 contents)
  else acc

/-- Source `KernFeatureWriter.getGroups`: builds `(side1Groups, side2Groups)`. -/
def getGroups (font : Font) : List (String × List String) × List (String × List String) :=
  font.groups.foldl (getGroupsStep font) ([], [])

/-- One iteration step of `getPairs`: the sequence of `continue` guards of
the source, then `pairs[side1, side2] = value`. -/
def getPairsStep (font : Font) (side1Groups side2Groups : List (String × List String))
    (acc : List ((String × String) × Int)) (e : (String × String) × Int) :
    List ((String × String) × Int) :=
  let side1 := e.1.1
  let side2 := e.1.2
  -- skip missing glyphs
  if ¬ (side1 ∈ dictKeys side1Groups) ∧ ¬ (side1 ∈ font.glyphs) then acc
  else if ¬ (side2 ∈ dictKeys side2Groups) ∧ ¬ (side2 ∈ font.glyphs) then acc
  -- skip empty groups
  else if strStartsWith side1 side1Pre ∧ ¬ (side1 ∈ dictKeys side1Groups) then acc
  else if strStartsWith side2 side2Pre ∧ ¬ (side2 ∈ dictKeys side2Groups) then acc
  -- store pair
  else dictInsert acc e.1 e.2

/-- Source `KernFeatureWriter.getPairs`. -/
def getPairs (font : Font) (side1Groups side2Groups : List (String × List String)) :
    List ((String × String) × Int) :=
  font.kerning.foldl (getPairsStep font side1Groups side2Groups) []

/-- Inner loop of `applyGroupNameToClassNameMapping` building the
group-name → class-name mapping for one side: iterate the sorted group
names, calling `makeLegalClassName(feaPre + groupName[groupPrefixLength:],
mapping.keys())`.  Note the source passes the mapping's *keys* (the raw
group names) as the collision set. -/
def buildMappingSide (feaPre : String) (names : List String)
    (mapping : List (String × String)) : Option (List (String × String)) :=
  match names with
  | [] => some mapping
  | gn :: rest =>
    match makeLegalClassName (feaPre ++ strDrop gn groupPrefixLength) (dictKeys mapping) with
    | none => none
    | some cn => buildMappingSide feaPre rest (dictInsert mapping gn cn)

/-- The mapping phase of `applyGroupNameToClassNameMapping`: side-1 group
names (sorted) first, then side-2 group names (sorted), one shared mapping. -/
def buildMapping (side1Groups side2Groups : List (String × List String)) :
    Option (List (String × String)) := do
  let m1 ← buildMappingSide side1FeaPre (sortStr (dictKeys side1Groups)) []
  buildMappingSide side2FeaPre (sortStr (dictKeys side2Groups)) m1

/-- The kerning-rewrite phase of `applyGroupNameToClassNameMapping`:
iterate `self.pairs.items()`, rename prefixed sides through the mapping
(`mapping[side]` raises `KeyError` when absent, modelled `none`), and build
the new pairs dict in iteration order. -/
def renamePairsGo (mapping : List (String × String))
    (acc : List ((String × String) × Int)) :
    List ((String × String) × Int) → Option (List ((String × String) × Int))
  | [] => some acc
  | ((side1, side2), value) :: rest => do
    let s1 ← if strStartsWith side1 side1Pre then mapping.lookup side1 else some side1
    let s2 ← if strStartsWith side2 side2Pre then mapping.lookup side2 else some side2
    renamePairsGo mapping (dictInsert acc (s1, s2) value) rest

/-- Source: the `newPairs` loop of `applyGroupNameToClassNameMapping`. -/
def renamePairs (mapping : List (String × String))
    (pairs : List ((String × String) × Int)) : Option (List ((String × String) × Int)) :=
  renamePairsGo mapping [] pairs

/-- Source: the `newSide1Groups` / `newSide2Groups` loops of
`applyGroupNameToClassNameMapping`: rekey one group dict through the
mapping. -/
def renameGroupsGo (mapping : List (String × String))
    (acc : List (String × List String)) :
    List (String × List String) → Option (List (String × List String))
  | [] => some acc
  | (groupName, contents) :: rest => do
    let cn ← mapping.lookup groupName
    renameGroupsGo mapping (dictInsert acc cn contents) rest

/-- Rekey a group dict (see `renameGroupsGo`). -/
def renameGroups (mapping : List (String × String))
    (groups : List (String × List String)) : Option (List (String × List String)) :=
  renameGroupsGo mapping [] groups

/-- Inner loop of `getFlatGroups` over one group's glyph list: a glyph
already present keeps its earlier group (source comment: "user has glyph in
more than one group. this is not allowed."). -/
def flattenGroup (groupName : String) (acc : List (String × String)) :
    List String → List (String × String)
  | [] => acc
  | g :: rest =>
    flattenGroup groupName
      (if g ∈ dictKeys acc then acc else acc ++ [(g, groupName)]) rest

/-- Source `KernFeatureWriter.getFlatGroups` for one side: glyph name →
first group (in dict iteration order) containing it. -/
def flattenSide (groups : List (String × List String)) : List (String × String) :=
  groups.foldl (fun acc e => flattenGroup e.1 acc e.2) []

/-- The writer state set up by `KernFeatureWriter.__init__`: the renamed
group dicts, the renamed pairs dict, and the two flat glyph→group indexes. -/
structure Writer where
  side1Groups : List (String × List String)
  side2Groups : List (String × List String)
  pairs : List ((String × String) × Int)
  flatSide1Groups : List (String × String)
  flatSide2Groups : List (String × String)
  deriving DecidableEq

/-- Source `KernFeatureWriter.__init__(font)`: `getGroups`, `getPairs`,
`applyGroupNameToClassNameMapping`, `getFlatGroups` in that order.  `none`
models an exception escaping the constructor. -/
def mkWriter (font : Font) : Option Writer := do
  let sg := getGroups font
  let pairs0 := getPairs font sg.1 sg.2
  let mapping ← buildMapping sg.1 sg.2
  let pairs ← renamePairs mapping pairs0
  let s1G ← renameGroups mapping sg.1
  let s2G ← renameGroups mapping sg.2
  some ⟨s1G, s2G, pairs, flattenSide s1G, flattenSide s2G⟩

/-- Source `KernFeatureWriter.isHigherLevelPairPossible(pair)`, a predicate
over the writer state. -/
def isHigherLevelPairPossible (st : Writer) (side1 side2 : String) : Bool :=
  let keys := dictKeys st.pairs
  let side1Group : Option String :=
    if strStartsWith side1 side1FeaPre then some side1
    else st.flatSide1Groups.lookup side1
  let side2Group : Option String :=
    if strStartsWith side2 side2FeaPre then some side2
    else st.flatSide2Groups.lookup side2
  if strStartsWith side1 side1FeaPre ∧ strStartsWith side2 side2FeaPre then false
  else if strStartsWith side1 side1FeaPre then
    side2Group.isSome && (side1, side2) ∈ keys
  else if strStartsWith side2 side2FeaPre then
    side1Group.isSome && (side1, side2) ∈ keys
  else
    match side1Group, side2Group with
    | some s1G, some s2G =>
      (side1, side2) ∈ keys || (s1G, side2) ∈ keys || (side1, s2G) ∈ keys
    | some _, none => (side1, side2) ∈ keys
    | none, some _ => (side1, side2) ∈ keys
    | none, none => false

/-- The six buckets returned by `getSeparatedPairs`.  The two decomposed
buckets are keyed by a (glyph, member-tuple) resp. (member-tuple, glyph)
pair, as in the source. -/
structure Buckets where
  glyphGlyph : List ((String × String) × Int)
  glyphGroupDecomposed : List ((String × List String) × Int)
  groupGlyphDecomposed : List ((List String × String) × Int)
  glyphGroup : List ((String × String) × Int)
  groupGlyph : List ((String × String) × Int)
  groupGroup : List ((String × String) × Int)
  deriving DecidableEq

/-- First phase of `getSeparatedPairs`: distribute the pairs over the four
string-keyed buckets by class-prefix tests.  Returns
`(glyphGlyph, glyphGroup, groupGlyph, groupGroup)`. -/
def bucketizeStep
    (acc : List ((String × String) × Int) × List ((String × String) × Int)
      × List ((String × String) × Int) × List ((String × String) × Int))
    (e : (String × String) × Int) :
    List ((String × String) × Int) × List ((String × String) × Int)
      × List ((String × String) × Int) × List ((String × String) × Int) :=
  let (gg, gG, Gg, GG) := acc
  let side1 := e.1.1
  let side2 := e.1.2
  if strStartsWith side1 side1FeaPre ∧ strStartsWith side2 side2FeaPre then
    (gg, gG, Gg, dictInsert GG e.1 e.2)
  else if strStartsWith side1 side1FeaPre then
    (gg, gG, dictInsert Gg e.1 e.2, GG)
  else if strStartsWith side2 side2FeaPre then
    (gg, dictInsert gG e.1 e.2, Gg, GG)
  else
    (dictInsert gg e.1 e.2, gG, Gg, GG)

/-- See `bucketizeStep`. -/
def bucketize (pairs : List ((String × String) × Int)) :
    List ((String × String) × Int) × List ((String × String) × Int)
      × List ((String × String) × Int) × List ((String × String) × Int) :=
  pairs.foldl bucketizeStep ([], [], [], [])

/-- The "glyph to group" decomposition loop of `getSeparatedPairs`,
iterating a snapshot of `glyphGroup.items()`.  State: the `allGlyphGlyph`
set, the `glyphGroupDecomposed` dict, and the (mutated) `glyphGroup` dict.
`self.side2Groups[side2]` raises `KeyError` when absent (modelled `none`). -/
def decomposeGlyphGroup (st : Writer)
    (allGG : List (String × String))
    (dec : List ((String × List String) × Int))
    (gG : List ((String × String) × Int)) :
    List ((String × String) × Int) →
    Option (List (String × String) × List ((String × List String) × Int)
      × List ((String × String) × Int))
  | [] => some (allGG, dec, gG)
  | ((side1, side2), value) :: rest =>
    if isHigherLevelPairPossible st side1 side2 then
      match st.side2Groups.lookup side2 with
      | none => none
      | some members =>
        decomposeGlyphGroup st
          (allGG ++ ((sortStr members).filter
            (fun r => ¬ ((side1, r) ∈ allGG))).map (fun r => (side1, r)))
          (dictInsert dec
            (side1, (sortStr members).filter (fun r => ¬ ((side1, r) ∈ allGG))) value)
          (dictDelete gG (side1, side2)) rest
    else
      decomposeGlyphGroup st allGG dec gG rest

/-- The "group to glyph" decomposition loop of `getSeparatedPairs`.  Note
the source excludes members `l` with `(l, side2)` in the `glyphGlyph` dict
*or* in `allGlyphGlyph` (the former is key membership in the dict). -/
def decomposeGroupGlyph (st : Writer)
    (glyphGlyphKeys : List (String × String))
    (allGG : List (String × String))
    (dec : List ((List String × String) × Int))
    (Gg : List ((String × String) × Int)) :
    List ((String × String) × Int) →
    Option (List (String × String) × List ((List String × String) × Int)
      × List ((String × String) × Int))
  | [] => some (allGG, dec, Gg)
  | ((side1, side2), value) :: rest =>
    if isHigherLevelPairPossible st side1 side2 then
      match st.side1Groups.lookup side1 with
      | none => none
      | some members =>
        decomposeGroupGlyph st glyphGlyphKeys
          (allGG ++ ((sortStr members).filter
            (fun l => ¬ ((l, side2) ∈ glyphGlyphKeys) ∧ ¬ ((l, side2) ∈ allGG))).map
              (fun l => (l, side2)))
          (dictInsert dec
            ((sortStr members).filter
              (fun l => ¬ ((l, side2) ∈ glyphGlyphKeys) ∧ ¬ ((l, side2) ∈ allGG)), side2) value)
          (dictDelete Gg (side1, side2)) rest
    else
      decomposeGroupGlyph st glyphGlyphKeys allGG dec Gg rest

/-- Source `KernFeatureWriter.getSeparatedPairs(pairs)`. -/
def getSeparatedPairs (st : Writer) (pairs : List ((String × String) × Int)) :
    Option Buckets :=
  match bucketize pairs with
  | (gg, gG, Gg, GG) =>
    match decomposeGlyphGroup st (dictKeys gg) [] gG gG with
    | none => none
    | some (allGG1, gGdec, gG') =>
      match decomposeGroupGlyph st (dictKeys gg) allGG1 [] Gg Gg with
      | none => none
      | some (_, Ggdec, Gg') => some ⟨gg, gGdec, Ggdec, gG', Gg', GG⟩

/-! ## kernFeatureWriter.py: write support -/

/-- Order on `(key, contents)` entries used by `sorted(groups.items())`:
compare names, then contents (Python tuple comparison). -/
def groupEntryLt (a b : String × List String) : Bool :=
  if strLt a.1 b.1 then true
  else if strLt b.1 a.1 then false
  else lexLt strLt a.2 b.2

/-- Source `KernFeatureWriter.getClassDefinitionsForGroups(groups)`. -/
def getClassDefinitionsForGroups (groups : List (String × List String)) : List String :=
  (sortBy groupEntryLt groups).map
    (fun e => e.1 ++ " = [" ++ joinWith " " (sortStr e.2) ++ "];")

/-- A pair side as seen by `getFeatureRulesForPairs`: either a string (glyph
name or class name) or an inline tuple of glyph names (from decomposition).
Python stores these dynamically typed; the sum type recovers that. -/
inductive Side where
  | str (s : String)
  | tup (gs : List String)
  deriving DecidableEq

/-- Python truthiness of a side (`if not side1 or not side2: continue`):
empty strings and empty tuples are falsy. -/
def sideTruthy : Side → Bool
  | .str s => ¬ (s = "")
  | .tup gs => ¬ (gs = [])

/-- `isinstance(side, inlineGroupInstance)`. -/
def sideIsInline : Side → Bool
  | .str _ => false
  | .tup _ => true

/-- Order on sides as Python `<` would compare them (same-constructor
comparisons only ever happen in the source, since each bucket is
homogeneous per position; the cross-constructor case — a `TypeError` in
Python 3 — is fixed arbitrarily). -/
def sideLt : Side → Side → Bool
  | .str a, .str b => strLt a b
  | .tup a, .tup b => lexLt strLt a b
  | .str _, .tup _ => true
  | .tup _, .str _ => false

/-- Order on bucket entries used by `sorted(pairs.items())`: key
lexicographically (side1 then side2), then the value. -/
def ruleEntryLt (a b : (Side × Side) × Int) : Bool :=
  if sideLt a.1.1 b.1.1 then true
  else if sideLt b.1.1 a.1.1 then false
  else if sideLt a.1.2 b.1.2 then true
  else if sideLt b.1.2 a.1.2 then false
  else a.2 < b.2

/-- Rendering of one side into the rule text. -/
def renderSide : Side → String
  | .str s => s
  | .tup gs => "[" ++ joinWith " " (sortStr gs) ++ "]"

/-- One `pos` / `enum pos` rule line. -/
def renderRule (s1 s2 : Side) (value : Int) : String :=
  (if sideIsInline s1 || sideIsInline s2 then "enum pos " else "pos ")
    ++ renderSide s1 ++ " " ++ renderSide s2 ++ " " ++ toString value ++ ";"

/-- Source `KernFeatureWriter.getFeatureRulesForPairs(pairs)`. -/
def getFeatureRulesForPairs (pairs : List ((Side × Side) × Int)) : List String :=
  (sortBy ruleEntryLt pairs).foldr
    (fun e acc =>
      if sideTruthy e.1.1 && sideTruthy e.1.2 then renderRule e.1.1 e.1.2 e.2 :: acc
      else acc) []

/-- Injection of a string-keyed bucket into `Side`-keyed entries. -/
def asStrStr (l : List ((String × String) × Int)) : List ((Side × Side) × Int) :=
  l.map (fun e => ((Side.str e.1.1, Side.str e.1.2), e.2))

/-- Injection of the glyph,group-decomposed bucket. -/
def asStrTup (l : List ((String × List String) × Int)) : List ((Side × Side) × Int) :=
  l.map (fun e => ((Side.str e.1.1, Side.tup e.1.2), e.2))

/-- Injection of the group,glyph-decomposed bucket. -/
def asTupStr (l : List ((List String × String) × Int)) : List ((Side × Side) × Int) :=
  l.map (fun e => ((Side.tup e.1.1, Side.str e.1.2), e.2))

/-- The rule sections of `write`, in the fixed order of the source's
`order` list, each nonempty bucket preceded by a blank line and its
comment label. -/
def ruleSections (bk : Buckets) : List String :=
  [("# glyph, glyph", asStrStr bk.glyphGlyph),
   ("# glyph, group exceptions", asStrTup bk.glyphGroupDecomposed),
   ("# group exceptions, glyph", asTupStr bk.groupGlyphDecomposed),
   ("# glyph, group", asStrStr bk.glyphGroup),
   ("# group, glyph", asStrStr bk.groupGlyph),
   ("# group, group", asStrStr bk.groupGroup)].foldr
    (fun e acc =>
      if e.2 = [] then acc
      else "" :: e.1 :: (getFeatureRulesForPairs e.2 ++ acc)) []

/-- The header-text reformatting of `write` (model of `splitlines` for
newline-separated text: a trailing final newline produces no extra line). -/
def headerLines (t : String) : List String :=
  let ls := t.splitOn "\n"
  let ls := if ls ≠ [] ∧ ls.getLast! = "" then ls.dropLast else ls
  ls.map (fun l =>
    let l := l.trim
    "    " ++ (if strStartsWith l "#" then l else "# " ++ l))

/-- Source `KernFeatureWriter.write(headerText)`. -/
def write (st : Writer) (headerText : Option String) : Option String :=
  if st.pairs = [] then some "" else do
  let bk ← getSeparatedPairs st st.pairs
  -- write the classes
  let groups := st.side2Groups.foldl (fun acc e => dictInsert acc e.1 e.2) st.side1Groups
  let classes := getClassDefinitionsForGroups groups
  -- write the kerning rules
  let rules := ruleSections bk
  -- compile
  let hdr := match headerText with | none => [] | some t => headerLines t
  let body := (classes ++ rules).map (fun l => if l = "" then l else "    " ++ l)
  some (joinWith "\n" (["feature kern \x7b"] ++ hdr ++ body ++ ["\x7d kern;"]))

/-! ## Concrete fixtures used by witnesses and counterexamples -/

/-- A small font: glyph `x` kerned against two side-2 groups that share the
member `m`. -/
def fontOrderA : Font :=
  { glyphs := ["x", "m", "n"]
  , groups := [("public.kern1.X", ["x"]),
      ("public.kern2.A", ["m", "n"]),
      ("public.kern2.B", ["m"])]
  , kerning := [(("x", "public.kern2.A"), 1), (("x", "public.kern2.B"), 2)] }

/-- The same font data with the kerning mapping enumerated in the other
order (same key→value mapping, different dict iteration order). -/
def fontOrderB : Font :=
  { glyphs := ["x", "m", "n"]
  , groups := [("public.kern1.X", ["x"]),
      ("public.kern2.A", ["m", "n"]),
      ("public.kern2.B", ["m"])]
  , kerning := [(("x", "public.kern2.B"), 2), (("x", "public.kern2.A"), 1)] }

/-- A writer state with one explicit glyph,glyph pair (`a`,`b`) and one
glyph,group pair on the group `@kern2.G = [b, c]`. -/
def wState : Writer :=
  { side1Groups := [("@kern1.G1", ["a"])]
  , side2Groups := [("@kern2.G", ["b", "c"])]
  , pairs := [(("a", "b"), 5), (("a", "@kern2.G"), 7)]
  , flatSide1Groups := [("a", "@kern1.G1")]
  , flatSide2Groups := [("b", "@kern2.G"), ("c", "@kern2.G")] }

/-- `getSeparatedPairs wState wState.pairs` (checked by `rfl` below): the
glyph,group pair decomposes and the member `b` is excluded because of the
explicit (`a`,`b`) pair. -/
def wBuckets : Buckets :=
  { glyphGlyph := [(("a", "b"), 5)]
  , glyphGroupDecomposed := [(("a", ["c"]), 7)]
  , groupGlyphDecomposed := []
  , glyphGroup := []
  , groupGlyph := []
  , groupGroup := [] }

/-- A font whose only kerning pair references a group all of whose members
are absent from the font. -/
def emptyGroupFont : Font :=
  { glyphs := ["a"]
  , groups := [("public.kern1.E", ["q"])]
  , kerning := [(("public.kern1.E", "a"), 3)] }

/-- A writer state with no pairs at all. -/
def emptyWriter : Writer :=
  { side1Groups := [], side2Groups := [], pairs := []
  , flatSide1Groups := [], flatSide2Groups := [] }

/-! ## Helper lemmas: dictionaries, sorting, lookup -/

theorem mem_dictInsert [DecidableEq κ] {k : κ} {v : ν} {e : κ × ν} :
    ∀ {m : List (κ × ν)}, e ∈ dictInsert m k v → e = (k, v) ∨ e ∈ m
  | [], h => by simpa [dictInsert] using h
  | (k', v') :: rest, h => by
    rw [dictInsert] at h
    split at h
    · rcases List.mem_cons.1 h with h | h
      · exact Or.inl h
      · exact Or.inr (List.mem_cons_of_mem _ h)
    · rcases List.mem_cons.1 h with h | h
      · exact Or.inr (h ▸ List.mem_cons_self _ _)
      · rcases mem_dictInsert h with h | h
        · exact Or.inl h
        · exact Or.inr (List.mem_cons_of_mem _ h)

theorem mem_keys_dictInsert [DecidableEq κ] (k q : κ) (v : ν) :
    ∀ (m : List (κ × ν)), q ∈ dictKeys (dictInsert m k v) ↔ q = k ∨ q ∈ dictKeys m
  | [] => by simp [dictInsert, dictKeys]
  | (k', v') :: rest => by
    rw [dictInsert]
    split
    · next heq =>
      subst heq
      simp [dictKeys, or_comm]
    · next hne =>
      have ih := mem_keys_dictInsert k q v rest
      simp only [dictKeys, List.map_cons, List.mem_cons] at ih ⊢
      rw [ih]
      tauto

theorem mem_dictDelete [DecidableEq κ] {k : κ} {e : κ × ν} :
    ∀ {m : List (κ × ν)}, e ∈ dictDelete m k → e ∈ m
  | [], h => by simp [dictDelete] at h
  | (k', v') :: rest, h => by
    rw [dictDelete] at h
    split at h
    · exact List.mem_cons_of_mem _ h
    · rcases List.mem_cons.1 h with h | h
      · exact h ▸ List.mem_cons_self _ _
      · exact List.mem_cons_of_mem _ (mem_dictDelete h)

theorem mem_insertSorted {lt : α → α → Bool} {x a : α} :
    ∀ {l : List α}, a ∈ insertSorted lt x l ↔ a = x ∨ a ∈ l
  | [] => by simp [insertSorted]
  | b :: l => by
    rw [insertSorted]
    split
    · simp
    · simp only [List.mem_cons]
      rw [mem_insertSorted (l := l)]
      tauto

theorem mem_sortBy {lt : α → α → Bool} {a : α} :
    ∀ {l : List α}, a ∈ sortBy lt l ↔ a ∈ l
  | [] => Iff.rfl
  | b :: l => by
    rw [sortBy, mem_insertSorted, mem_sortBy (l := l), List.mem_cons]

theorem lookup_append {g : String} :
    ∀ (l1 l2 : List (String × ν)), (l1 ++ l2).lookup g = optOr (l1.lookup g) (l2.lookup g)
  | [], l2 => rfl
  | (k, v) :: l1, l2 => by
    by_cases h : g = k
    · subst h
      simp [List.lookup, optOr]
    · simp only [List.cons_append, List.lookup, beq_false_of_ne h]
      exact lookup_append l1 l2

theorem lookup_isSome_of_mem_keys {g : String} :
    ∀ {m : List (String × ν)}, g ∈ dictKeys m → (m.lookup g).isSome
  | [], h => by simp [dictKeys] at h
  | (k, v) :: m, h => by
    rcases List.mem_cons.1 h with h | h
    · subst h
      simp [List.lookup]
    · by_cases hk : g = k
      · subst hk
        simp [List.lookup]
      · simp only [List.lookup, beq_false_of_ne hk]
        exact lookup_isSome_of_mem_keys h

theorem lookup_eq_none_of_not_mem_keys {g : String} :
    ∀ {m : List (String × ν)}, g ∉ dictKeys m → m.lookup g = none
  | [], _ => rfl
  | (k, v) :: m, h => by
    simp only [dictKeys, List.map_cons, List.mem_cons] at h
    push_neg at h
    simp only [List.lookup, beq_false_of_ne h.1]
    exact lookup_eq_none_of_not_mem_keys h.2

theorem lookup_of_mem_nodup {g : String} {v : ν} :
    ∀ {m : List (String × ν)}, (m.map Prod.fst).Nodup → (g, v) ∈ m → m.lookup g = some v
  | [], _, h => by simp at h
  | (k, w) :: m, hnd, h => by
    simp only [List.map_cons, List.nodup_cons] at hnd
    rcases List.mem_cons.1 h with h' | h'
    · rw [Prod.mk.injEq] at h'
      obtain ⟨rfl, rfl⟩ := h'
      simp [List.lookup]
    · have hmem : g ∈ m.map Prod.fst := List.mem_map.2 ⟨(g, v), h', rfl⟩
      have hne : g ≠ k := fun he => hnd.1 (he ▸ hmem)
      simp only [List.lookup, beq_false_of_ne hne]
      exact lookup_of_mem_nodup hnd.2 h'

/-! ## Helper lemmas: strings and the glyph-name legalizers -/

theorem data_mk (l : List Char) : (String.mk l).data = l := rfl

theorem mk_data (s : String) : String.mk s.data = s := rfl

theorem data_append (a b : String) : (a ++ b).data = a.data ++ b.data := rfl

/-- Every result of the `_makeUniqueGlyphName` recursion has the shape
`glyphName ++ "." ++ str(n)` (also on the unreachable fuel-out branch). -/
theorem makeUniqueGlyphNameGo_shape (g : String) (ex : List String) :
    ∀ (fuel number : Nat), ∃ n : Nat,
      makeUniqueGlyphNameGo g ex number fuel = g ++ "." ++ toString n := by
  intro fuel
  induction fuel with
  | zero => exact fun number => ⟨number, rfl⟩
  | succ fuel ih =>
    intro number
    by_cases hmem : (g ++ "." ++ toString number) ∈ ex
    · simp only [makeUniqueGlyphNameGo, if_pos hmem]
      exact ih (number + 1)
    · simp only [makeUniqueGlyphNameGo, if_neg hmem]
      exact ⟨number, rfl⟩

/-- A nonempty name longer than 31 code points is reported illegal. -/
theorem isLegalGlyphName_of_long {g : String} (hne : g.data ≠ []) (hlen : 31 < g.data.length) :
    isLegalGlyphName g = some false := by
  rw [isLegalGlyphName]
  cases hd : g.data with
  | nil => exact absurd hd hne
  | cons c rest =>
    rw [hd] at hlen
    have h31 : ((c :: rest).length ≤ 31 : Bool) = false := by
      simp only [decide_eq_false_iff_not]
      omega
    simp only [h31, Bool.and_false, Bool.false_and]

/-- An `isLegalGlyphName ... = some true` name has nonempty data and only
characters from the allowed set. -/
theorem isLegalGlyphName_true_elim {g : String} (h : isLegalGlyphName g = some true) :
    g.data ≠ [] ∧ ∀ c ∈ g.data, c ∈ validCharactersM := by
  rw [isLegalGlyphName] at h
  cases hd : g.data with
  | nil => rw [hd] at h; cases h
  | cons c rest =>
    rw [hd] at h
    simp only [Option.some.injEq, Bool.and_eq_true, List.all_eq_true,
      decide_eq_true_eq] at h
    refine ⟨by simp [hd], ?_⟩
    intro ch hch
    exact h.2 ch hch

/-! ## C1 / C2 / C3 / C7 / C9 / C10 -/

/-- C1: the claim states the identifier returned by `makeLegalClassName` is
never a member of `existingNames`.  The source computes the uniquified name
via `_makeUniqueClassName` but discards the result (`name` is returned
unchanged), so a colliding candidate is returned as-is: on input
`"@kern1.foo"` with existing `["@kern1.foo"]` the function returns
`"@kern1.foo"`, which is in the existing set (the helper's own doctests
expect `"@kern1.foo1"` here). -/
theorem claim1_collision_returned :
    makeLegalClassName "@kern1.foo" ["@kern1.foo"] = some "@kern1.foo" ∧
    "@kern1.foo" ∈ ["@kern1.foo"] := by
  constructor
  · decide
  · decide

/-- C2: the claim states `normalizeGlyphName` always returns a value and
never raises.  On a glyph name whose legal-character filtering leaves the
empty string and whose Unicode value is unknown (`None`), the source calls
`isLegalGlyphName("")`, whose first statement `glyphName[0]` raises
`IndexError` (modelled by `none`): input `"*"` with `uniValue = None`. -/
theorem claim2_empty_name_raises :
    normalizeGlyphName id "*" none [] = none := by
  decide

/-- C3 counterexample: the claim states a name whose filtered form exceeds
31 characters is truncated to its first 31 characters.  The source instead
treats the over-long name as illegal and falls back to `glyph1` (as its own
doctest documents): the 32-character all-legal name below maps to
`"glyph1"`, not to its 31-character truncation. -/
theorem claim3_counterexample :
    normalizeGlyphName id "abcdefghijklmnopqrstuvwxyz012345" none [] = some "glyph1" ∧
    ¬ normalizeGlyphName id "abcdefghijklmnopqrstuvwxyz012345" none []
        = some "abcdefghijklmnopqrstuvwxyz01234" := by
  constructor
  · decide
  · decide

/-- C3 (amended): for every glyph name whose decomposed-and-filtered form
exceeds 31 characters, `normalizeGlyphName` returns the sequential
`glyphN` fallback (`_makeUniqueFallbackGlyphName existing`), not a
truncation. -/
theorem claim3_long_name_falls_back (nfkd : String → String) (glyphName : String)
    (uniValue : Option Nat) (existing : List String)
    (hlen : 31 < ((nfkd glyphName).data.filter (fun c => c ∈ validCharactersM)).length) :
    normalizeGlyphName nfkd glyphName uniValue existing
      = makeUniqueFallbackGlyphName existing := by
  have hne : ¬ (String.mk ((nfkd glyphName).data.filter
      (fun c => (c ∈ validCharactersM : Bool)))).data = [] := by
    rw [data_mk]
    intro h
    rw [h] at hlen
    simp at hlen
  simp only [normalizeGlyphName.eq_def]
  rw [if_neg hne]
  set g0 : String :=
    String.mk ((nfkd glyphName).data.filter (fun c => (c ∈ validCharactersM : Bool)))
    with hg0
  have hg0len : 31 < g0.data.length := by rw [hg0, data_mk]; exact hlen
  have hg0ne : g0.data ≠ [] := fun h => hne (hg0 ▸ h)
  by_cases hmem : g0 ∈ existing
  · rw [if_pos hmem]
    obtain ⟨n, hn⟩ := makeUniqueGlyphNameGo_shape g0 existing (existing.length + 1) 1
    rw [makeUniqueGlyphName, hn]
    have hdata : (g0 ++ "." ++ toString n).data = g0.data ++ ".".data ++ (toString n).data := by
      rw [data_append, data_append]
    have hne2 : (g0 ++ "." ++ toString n).data ≠ [] := by
      rw [hdata]
      intro h
      rcases List.append_eq_nil.1 h with ⟨h1, _⟩
      rcases List.append_eq_nil.1 h1 with ⟨h2, _⟩
      exact hg0ne h2
    have hlong2 : 31 < (g0 ++ "." ++ toString n).data.length := by
      rw [hdata]
      simp only [List.length_append]
      omega
    rw [isLegalGlyphName_of_long hne2 hlong2]
  · rw [if_neg hmem]
    rw [isLegalGlyphName_of_long hg0ne hg0len]

/-- C3 witness: the amended statement at the concrete 36-character name
`"aaaa…"` with empty existing set, where the fallback is `glyph1`. -/
theorem claim3_witness :
    normalizeGlyphName id "aaaaaaaaaaaaaaaaaaaaaaaaaaaaaaaaaaaa" none []
      = makeUniqueFallbackGlyphName [] :=
  claim3_long_name_falls_back id "aaaaaaaaaaaaaaaaaaaaaaaaaaaaaaaaaaaa" none [] (by decide)

/-- C7: if no kerning pairs survived collection and filtering
(`self.pairs` is empty), `write` returns the empty string: no
`feature kern` wrapper, no classes, no rules. -/
theorem claim7_no_pairs_empty_output (st : Writer) (headerText : Option String)
    (h : st.pairs = []) : write st headerText = some "" := by
  rw [write.eq_def, if_pos h]

/-- C7 witness: the writer state with no pairs. -/
theorem claim7_witness : write emptyWriter none = some "" :=
  claim7_no_pairs_empty_output emptyWriter none rfl

/-- C9: legalizing an already-legal, already-unique name is the identity:
`makeLegalClassName` on a class name whose suffix is nonempty and all-legal,
whose total length is at most 31 and which is not in the existing set; and
`normalizeGlyphName` on a legal glyph name (fixed by the decomposition)
absent from the existing set. -/
theorem claim9_idempotence (name : String) (ex1 : List String)
    (nfkd : String → String) (glyphName : String) (uniValue : Option Nat) (ex2 : List String)
    (hsuffix : classPrefixLength < strLen name)
    (hval : ∀ c ∈ (strDrop name classPrefixLength).data, c ∈ validCharactersK)
    (hlen : strLen name ≤ 31)
    (hnotin : name ∉ ex1)
    (hfix : nfkd glyphName = glyphName)
    (hleg : isLegalGlyphName glyphName = some true)
    (hnotin2 : glyphName ∉ ex2) :
    makeLegalClassName name ex1 = some name ∧
    normalizeGlyphName nfkd glyphName uniValue ex2 = some glyphName := by
  constructor
  · rw [makeLegalClassName]
    have hfilter : (strDrop name classPrefixLength).data.filter
        (fun c => (c ∈ validCharactersK : Bool)) = (strDrop name classPrefixLength).data := by
      rw [List.filter_eq_self]
      intro a ha
      simpa using hval a ha
    rw [hfilter]
    have hdrop : (String.mk (strDrop name classPrefixLength).data) = strDrop name classPrefixLength :=
      mk_data _
    rw [hdrop]
    have htakelen : (strDrop name classPrefixLength).data.length ≤ 31 - classPrefixLength := by
      rw [strDrop, data_mk, List.length_drop]
      rw [strLen] at hlen
      omega
    have htake : strTake (strDrop name classPrefixLength) (31 - classPrefixLength)
        = strDrop name classPrefixLength := by
      rw [strTake, List.take_of_length_le htakelen, mk_data]
    rw [htake]
    have hdropne : ¬ (strDrop name classPrefixLength).data = [] := by
      rw [strDrop, data_mk]
      intro h
      have := List.length_eq_zero.2 h
      rw [List.length_drop, strLen] at *
      omega
    rw [if_neg hdropne]
    have hfull : strTake name classPrefixLength ++ strDrop name classPrefixLength = name := by
      have : (strTake name classPrefixLength ++ strDrop name classPrefixLength).data = name.data := by
        rw [data_append, strTake, strDrop, data_mk, data_mk, List.take_append_drop]
      calc strTake name classPrefixLength ++ strDrop name classPrefixLength
          = String.mk (strTake name classPrefixLength ++ strDrop name classPrefixLength).data :=
            (mk_data _).symm
        _ = String.mk name.data := by rw [this]
        _ = name := mk_data _
    rw [hfull]
    rw [makeUniqueClassName, makeUniqueClassNameGo, if_pos rfl, if_neg hnotin]
  · obtain ⟨hne, hvalid⟩ := isLegalGlyphName_true_elim hleg
    have hfilter : glyphName.data.filter (fun c => (c ∈ validCharactersM : Bool))
        = glyphName.data := by
      rw [List.filter_eq_self]
      intro a ha
      simpa using hvalid a ha
    simp only [normalizeGlyphName.eq_def, hfix, hfilter, mk_data]
    rw [if_neg hne, if_neg hnotin2, hleg]

/-- C9 witness: `"@kern1.AB"` against the empty set, and glyph `"foo"`
(NFKD-fixed, legal) against the empty set. -/
theorem claim9_witness :
    makeLegalClassName "@kern1.AB" [] = some "@kern1.AB" ∧
    normalizeGlyphName id "foo" none [] = some "foo" :=
  claim9_idempotence "@kern1.AB" [] id "foo" none []
    (by decide) (by decide) (by decide) (by decide) rfl (by decide) (by decide)

/-- Membership in the rule-emitting fold of `getFeatureRulesForPairs`. -/
theorem mem_rulesFold :
    ∀ {l : List ((Side × Side) × Int)} {line : String},
      line ∈ l.foldr (fun e acc =>
        if sideTruthy e.1.1 && sideTruthy e.1.2 then renderRule e.1.1 e.1.2 e.2 :: acc
        else acc) [] →
      ∃ e ∈ l, (sideTruthy e.1.1 && sideTruthy e.1.2) = true ∧ line = renderRule e.1.1 e.1.2 e.2
  | [], line, h => by simp at h
  | e :: l, line, h => by
    rw [List.foldr_cons] at h
    split at h
    · next hcond =>
      rcases List.mem_cons.1 h with h | h
      · exact ⟨e, List.mem_cons_self _ _, hcond, h⟩
      · obtain ⟨e', he', hc', hl'⟩ := mem_rulesFold h
        exact ⟨e', List.mem_cons_of_mem _ he', hc', hl'⟩
    · obtain ⟨e', he', hc', hl'⟩ := mem_rulesFold h
      exact ⟨e', List.mem_cons_of_mem _ he', hc', hl'⟩

/-- C10: every emitted rule line comes from a pair whose two sides are
truthy (nonempty string / nonempty member tuple), so a decomposed pair with
an empty member tuple contributes no rule line at all; in particular a
bucket holding only an empty-tuple pair produces no lines (no
`enum pos [] …` rule). -/
theorem claim10_empty_enumerations_skipped :
    (∀ (ps : List ((Side × Side) × Int)) (line : String),
      line ∈ getFeatureRulesForPairs ps →
      ∃ e ∈ ps, sideTruthy e.1.1 = true ∧ sideTruthy e.1.2 = true ∧
        line = renderRule e.1.1 e.1.2 e.2)
    ∧ getFeatureRulesForPairs [((Side.str "x", Side.tup []), 2)] = [] := by
  constructor
  · intro ps line h
    rw [getFeatureRulesForPairs] at h
    obtain ⟨e, he, hcond, hline⟩ := mem_rulesFold h
    rw [Bool.and_eq_true] at hcond
    exact ⟨e, mem_sortBy.1 he, hcond.1, hcond.2, hline⟩
  · decide

/-- C10 witness: the membership part applied to a concrete one-rule input. -/
theorem claim10_witness :
    ∃ e ∈ [((Side.str "a", Side.str "b"), (3 : Int))],
      sideTruthy e.1.1 = true ∧ sideTruthy e.1.2 = true ∧
        "pos a b 3;" = renderRule e.1.1 e.1.2 e.2 :=
  claim10_empty_enumerations_skipped.1 _ _ (by decide)

/-! ## C4: determinism under mapping iteration order -/

theorem optOr_none (a : Option α) : optOr a none = a := by cases a <;> rfl

theorem optOr_assoc (a b c : Option α) : optOr (optOr a b) c = optOr a (optOr b c) := by
  cases a <;> rfl

/-- Lookup after the inner `getFlatGroups` loop over one group's glyphs:
already-assigned glyphs keep their value, and the new group is recorded for
its own members otherwise. -/
theorem flattenGroup_lookup (gn g : String) :
    ∀ (cs : List String) (acc : List (String × String)),
      (flattenGroup gn acc cs).lookup g
        = optOr (acc.lookup g) (if g ∈ cs then some gn else none)
  | [], acc => by simp [flattenGroup, optOr_none]
  | c :: cs, acc => by
    rw [flattenGroup, flattenGroup_lookup gn g cs]
    by_cases hc : c ∈ dictKeys acc
    · rw [if_pos hc]
      by_cases hg : g = c
      · subst hg
        obtain ⟨a, ha⟩ := Option.isSome_iff_exists.1 (lookup_isSome_of_mem_keys hc)
        rw [ha]
        simp [optOr]
      · simp [List.mem_cons, hg]
    · rw [if_neg hc, lookup_append]
      by_cases hg : g = c
      · subst hg
        rw [lookup_eq_none_of_not_mem_keys hc]
        simp [optOr, List.lookup]
      · have hsingle : ([(c, gn)] : List (String × String)).lookup g = none := by
          simp [List.lookup, beq_false_of_ne hg]
        rw [hsingle, optOr_none]
        simp [List.mem_cons, hg]

/-- Lookup after the full `getFlatGroups` fold. -/
theorem flattenFold_lookup (g : String) :
    ∀ (l : List (String × List String)) (acc : List (String × String)),
      ((l.foldl (fun acc e => flattenGroup e.1 acc e.2) acc).lookup g)
        = optOr (acc.lookup g) ((l.find? (fun e => decide (g ∈ e.2))).map Prod.fst)
  | [], acc => by simp [optOr_none]
  | (gn, cs) :: l, acc => by
    rw [List.foldl_cons, flattenFold_lookup g l, flattenGroup_lookup gn g cs acc, optOr_assoc]
    by_cases hg : g ∈ cs
    · rw [if_pos hg]
      have hfind : List.find? (fun e => decide (g ∈ e.2)) ((gn, cs) :: l) = some (gn, cs) :=
        List.find?_cons_of_pos _ (by simp [hg])
      rw [hfind]
      rfl
    · rw [if_neg hg]
      have hfind : List.find? (fun e => decide (g ∈ e.2)) ((gn, cs) :: l)
          = List.find? (fun e => decide (g ∈ e.2)) l :=
        List.find?_cons_of_neg _ (by simp [hg])
      rw [hfind]
      rfl

/-- C4 counterexample: the claim states byte-identical output regardless of
the iteration order of the underlying mappings, with the flattening choice
made by sorting.  Presenting the same kerning mapping in two different
iteration orders changes the emitted text: with `@kern2.A = [m n]`,
`@kern2.B = [m]` and pairs (`x`,A)=1, (`x`,B)=2, processing A first yields
`enum pos x [m n] 1;` only, processing B first yields `enum pos x [m] 2;`
and `enum pos x [n] 1;` (the decomposition exclusion set depends on pair
order, and `getFlatGroups` keeps the first-listed group, unsorted). -/
theorem claim4_counterexample :
    fontOrderA.glyphs = fontOrderB.glyphs ∧
    fontOrderA.groups = fontOrderB.groups ∧
    fontOrderA.kerning.Perm fontOrderB.kerning ∧
    ¬ ((mkWriter fontOrderA).bind (fun st => write st none)
        = (mkWriter fontOrderB).bind (fun st => write st none)) := by
  refine ⟨rfl, rfl, by decide, by decide⟩

/-- C4 (amended): the output is a deterministic function of the given
iteration orders, but not invariant under reordering; the glyph-to-group
flattening resolves multiple membership by keeping the *first* group
listed in mapping iteration order that contains the glyph (`find?`), not by
sorting candidate group names. -/
theorem claim4_flattening_keeps_first_group :
    ∀ (groups : List (String × List String)) (g : String),
      (flattenSide groups).lookup g
        = (groups.find? (fun e => decide (g ∈ e.2))).map Prod.fst := by
  intro groups g
  rw [flattenSide, flattenFold_lookup g groups []]
  rfl

/-! ## C6: dangling references are filtered during collection -/

/-- Keys added to the side-1 dict by one `getGroups` step. -/
theorem keys1_getGroupsStep {font : Font}
    {acc : List (String × List String) × List (String × List String)}
    {e : String × List String} {k : String}
    (h : k ∈ dictKeys (getGroupsStep font acc e).1) :
    (k = e.1 ∧ strStartsWith e.1 side1Pre = true
      ∧ e.2.filter (fun g => g ∈ font.glyphs) ≠ []) ∨ k ∈ dictKeys acc.1 := by
  simp only [getGroupsStep] at h
  split at h
  · exact Or.inr h
  next hcon =>
    split at h
    · next hpre =>
      rcases (mem_keys_dictInsert _ _ _ _).1 h with h | h
      · exact Or.inl ⟨h, hpre, hcon⟩
      · exact Or.inr h
    · split at h
      · exact Or.inr h
      · exact Or.inr h

/-- Keys added to the side-2 dict by one `getGroups` step. -/
theorem keys2_getGroupsStep {font : Font}
    {acc : List (String × List String) × List (String × List String)}
    {e : String × List String} {k : String}
    (h : k ∈ dictKeys (getGroupsStep font acc e).2) :
    (k = e.1 ∧ strStartsWith e.1 side2Pre = true
      ∧ e.2.filter (fun g => g ∈ font.glyphs) ≠ []) ∨ k ∈ dictKeys acc.2 := by
  simp only [getGroupsStep] at h
  split at h
  · exact Or.inr h
  next hcon =>
    split at h
    · exact Or.inr h
    · split at h
      · next hpre =>
        rcases (mem_keys_dictInsert _ _ _ _).1 h with h | h
        · exact Or.inl ⟨h, hpre, hcon⟩
        · exact Or.inr h
      · exact Or.inr h

/-- Origin of a side-1 key of the `getGroups` fold: a prefixed group of the
font whose filtered contents are nonempty (or a key already in the
accumulator). -/
theorem keys1_getGroups_fold {font : Font} {k : String} :
    ∀ (l : List (String × List String))
      (acc : List (String × List String) × List (String × List String)),
      k ∈ dictKeys (l.foldl (getGroupsStep font) acc).1 →
      k ∈ dictKeys acc.1 ∨ ∃ cs, (k, cs) ∈ l ∧ cs.filter (fun g => g ∈ font.glyphs) ≠ []
        ∧ strStartsWith k side1Pre = true
  | [], _, h => Or.inl h
  | e :: l, acc, h => by
    rw [List.foldl_cons] at h
    rcases keys1_getGroups_fold l _ h with h | ⟨cs, hmem, hne, hpre⟩
    · rcases keys1_getGroupsStep h with ⟨rfl, hpre, hne⟩ | h
      · exact Or.inr ⟨e.2, List.mem_cons_self _ _, hne, hpre⟩
      · exact Or.inl h
    · exact Or.inr ⟨cs, List.mem_cons_of_mem _ hmem, hne, hpre⟩

/-- Origin of a side-2 key of the `getGroups` fold. -/
theorem keys2_getGroups_fold {font : Font} {k : String} :
    ∀ (l : List (String × List String))
      (acc : List (String × List String) × List (String × List String)),
      k ∈ dictKeys (l.foldl (getGroupsStep font) acc).2 →
      k ∈ dictKeys acc.2 ∨ ∃ cs, (k, cs) ∈ l ∧ cs.filter (fun g => g ∈ font.glyphs) ≠ []
        ∧ strStartsWith k side2Pre = true
  | [], _, h => Or.inl h
  | e :: l, acc, h => by
    rw [List.foldl_cons] at h
    rcases keys2_getGroups_fold l _ h with h | ⟨cs, hmem, hne, hpre⟩
    · rcases keys2_getGroupsStep h with ⟨rfl, hpre, hne⟩ | h
      · exact Or.inr ⟨e.2, List.mem_cons_self _ _, hne, hpre⟩
      · exact Or.inl h
    · exact Or.inr ⟨cs, List.mem_cons_of_mem _ hmem, hne, hpre⟩

theorem not_mem_keys1_of_not_pre {font : Font} {s1 : String}
    (h : strStartsWith s1 side1Pre = false) : s1 ∉ dictKeys (getGroups font).1 := by
  intro hk
  rw [getGroups] at hk
  rcases keys1_getGroups_fold font.groups ([], []) hk with hk | ⟨_, _, _, hpre⟩
  · simp [dictKeys] at hk
  · rw [h] at hpre
    cases hpre

theorem not_mem_keys2_of_not_pre {font : Font} {s2 : String}
    (h : strStartsWith s2 side2Pre = false) : s2 ∉ dictKeys (getGroups font).2 := by
  intro hk
  rw [getGroups] at hk
  rcases keys2_getGroups_fold font.groups ([], []) hk with hk | ⟨_, _, _, hpre⟩
  · simp [dictKeys] at hk
  · rw [h] at hpre
    cases hpre

theorem not_mem_keys1_of_filtered_empty {font : Font} {s1 : String} {cs : List String}
    (hnd : (font.groups.map Prod.fst).Nodup)
    (hlk : font.groups.lookup s1 = some cs)
    (hemp : cs.filter (fun g => g ∈ font.glyphs) = []) :
    s1 ∉ dictKeys (getGroups font).1 := by
  intro hk
  rw [getGroups] at hk
  rcases keys1_getGroups_fold font.groups ([], []) hk with hk | ⟨cs', hmem, hne, _⟩
  · simp [dictKeys] at hk
  · have hlk' := lookup_of_mem_nodup hnd hmem
    rw [hlk] at hlk'
    injection hlk' with h'
    exact hne (by rw [← h']; exact hemp)

theorem not_mem_keys2_of_filtered_empty {font : Font} {s2 : String} {cs : List String}
    (hnd : (font.groups.map Prod.fst).Nodup)
    (hlk : font.groups.lookup s2 = some cs)
    (hemp : cs.filter (fun g => g ∈ font.glyphs) = []) :
    s2 ∉ dictKeys (getGroups font).2 := by
  intro hk
  rw [getGroups] at hk
  rcases keys2_getGroups_fold font.groups ([], []) hk with hk | ⟨cs', hmem, hne, _⟩
  · simp [dictKeys] at hk
  · have hlk' := lookup_of_mem_nodup hnd hmem
    rw [hlk] at hlk'
    injection hlk' with h'
    exact hne (by rw [← h']; exact hemp)

/-- Keys of one `getPairs` step. -/
theorem keys_getPairsStep {font : Font} {g1 g2 : List (String × List String)}
    {acc : List ((String × String) × Int)} {e : (String × String) × Int}
    {k : String × String}
    (h : k ∈ dictKeys (getPairsStep font g1 g2 acc e)) : k = e.1 ∨ k ∈ dictKeys acc := by
  simp only [getPairsStep] at h
  split at h
  · exact Or.inr h
  split at h
  · exact Or.inr h
  split at h
  · exact Or.inr h
  split at h
  · exact Or.inr h
  rcases (mem_keys_dictInsert _ _ _ _).1 h with h | h
  · exact Or.inl h
  · exact Or.inr h

/-- A pair whose side is a dangling reference is skipped by `getPairs`. -/
theorem getPairsStep_skip {font : Font} {g1 g2 : List (String × List String)}
    {s1 s2 : String}
    (hbad : (s1 ∉ dictKeys g1 ∧ (s1 ∉ font.glyphs ∨ strStartsWith s1 side1Pre = true))
      ∨ (s2 ∉ dictKeys g2 ∧ (s2 ∉ font.glyphs ∨ strStartsWith s2 side2Pre = true))) :
    ∀ (acc : List ((String × String) × Int)) (v : Int),
      getPairsStep font g1 g2 acc ((s1, s2), v) = acc := by
  intro acc v
  simp only [getPairsStep]
  split
  · rfl
  split
  · rfl
  split
  · rfl
  split
  · rfl
  exfalso
  rcases hbad with ⟨hk, hor⟩ | ⟨hk, hor⟩ <;> rcases hor with hg | hp <;> tauto

theorem getPairs_fold_not_mem {font : Font} {g1 g2 : List (String × List String)}
    {s1 s2 : String}
    (hskip : ∀ (acc : List ((String × String) × Int)) (v : Int),
      getPairsStep font g1 g2 acc ((s1, s2), v) = acc) :
    ∀ (l : List ((String × String) × Int)) (acc : List ((String × String) × Int)),
      (s1, s2) ∉ dictKeys acc → (s1, s2) ∉ dictKeys (l.foldl (getPairsStep font g1 g2) acc)
  | [], _, hacc => hacc
  | e :: l, acc, hacc => by
    rw [List.foldl_cons]
    apply getPairs_fold_not_mem hskip l
    by_cases he : e.1 = (s1, s2)
    · have hstep : getPairsStep font g1 g2 acc e = acc := by
        have he2 : e = ((s1, s2), e.2) := by
          rcases e with ⟨ek, ev⟩
          simp only at he
          rw [he]
        rw [he2]
        exact hskip acc e.2
      rw [hstep]
      exact hacc
    · intro hmem
      rcases keys_getPairsStep hmem with h | h
      · exact he h.symm
      · exact hacc h

/-- C6: a raw kerning pair either of whose sides names a glyph absent from
the font, or a group whose members are all absent from the font, is
excluded by `getPairs` (collection), hence never reaches the emitted
feature text (all rules and class lines are computed from the collected
pairs and groups only). -/
theorem claim6_dangling_pairs_excluded (font : Font) (s1 s2 : String)
    (hnd : (font.groups.map Prod.fst).Nodup)
    (hbad :
      ((strStartsWith s1 side1Pre = false ∧ s1 ∉ font.glyphs) ∨
        (∃ cs, font.groups.lookup s1 = some cs ∧ strStartsWith s1 side1Pre = true ∧
          cs.filter (fun g => g ∈ font.glyphs) = [])) ∨
      ((strStartsWith s2 side2Pre = false ∧ s2 ∉ font.glyphs) ∨
        (∃ cs, font.groups.lookup s2 = some cs ∧ strStartsWith s2 side2Pre = true ∧
          cs.filter (fun g => g ∈ font.glyphs) = []))) :
    (s1, s2) ∉ dictKeys (getPairs font (getGroups font).1 (getGroups font).2) := by
  rw [getPairs]
  refine getPairs_fold_not_mem (getPairsStep_skip ?_) font.kerning [] (by simp [dictKeys])
  rcases hbad with hbad | hbad
  · left
    rcases hbad with ⟨hpre, habs⟩ | ⟨cs, hlk, hpre, hemp⟩
    · exact ⟨not_mem_keys1_of_not_pre hpre, Or.inl habs⟩
    · exact ⟨not_mem_keys1_of_filtered_empty hnd hlk hemp, Or.inr hpre⟩
  · right
    rcases hbad with ⟨hpre, habs⟩ | ⟨cs, hlk, hpre, hemp⟩
    · exact ⟨not_mem_keys2_of_not_pre hpre, Or.inl habs⟩
    · exact ⟨not_mem_keys2_of_filtered_empty hnd hlk hemp, Or.inr hpre⟩

/-- C6 witness: the pair (`public.kern1.E`, `a`) whose group has no member
present in the font is not collected. -/
theorem claim6_witness :
    ("public.kern1.E", "a")
      ∉ dictKeys (getPairs emptyGroupFont (getGroups emptyGroupFont).1
          (getGroups emptyGroupFont).2) :=
  claim6_dangling_pairs_excluded emptyGroupFont "public.kern1.E" "a" (by decide)
    (Or.inl (Or.inr ⟨["q"], by decide, by decide, by decide⟩))

/-! ## C5 / C8: decomposition invariants of `getSeparatedPairs` -/

/-- The `glyphGroup` and `groupGlyph` buckets of one `bucketizeStep` hold
only entries of the processed list, correctly classified by prefix. -/
theorem bucketizeStep_sound {ps : List ((String × String) × Int)}
    {acc : List ((String × String) × Int) × List ((String × String) × Int)
      × List ((String × String) × Int) × List ((String × String) × Int)}
    {e : (String × String) × Int} (he : e ∈ ps)
    (h2 : ∀ x ∈ acc.2.1, x ∈ ps ∧ strStartsWith x.1.2 side2FeaPre = true)
    (h3 : ∀ x ∈ acc.2.2.1, x ∈ ps ∧ strStartsWith x.1.1 side1FeaPre = true) :
    (∀ x ∈ (bucketizeStep acc e).2.1, x ∈ ps ∧ strStartsWith x.1.2 side2FeaPre = true)
    ∧ (∀ x ∈ (bucketizeStep acc e).2.2.1, x ∈ ps ∧ strStartsWith x.1.1 side1FeaPre = true) := by
  obtain ⟨gg, gG, Gg, GG⟩ := acc
  simp only [bucketizeStep]
  split
  · exact ⟨h2, h3⟩
  next hboth =>
    split
    · next hpre1 =>
      refine ⟨h2, ?_⟩
      intro x hx
      rcases mem_dictInsert hx with rfl | hx'
      · exact ⟨he, hpre1⟩
      · exact h3 x hx'
    · next hpre1 =>
      split
      · next hpre2 =>
        refine ⟨?_, h3⟩
        intro x hx
        rcases mem_dictInsert hx with rfl | hx'
        · exact ⟨he, hpre2⟩
        · exact h2 x hx'
      · exact ⟨h2, h3⟩

/-- Soundness of the two middle buckets over the whole `bucketize` fold. -/
theorem bucketize_fold_sound (ps : List ((String × String) × Int)) :
    ∀ (l : List ((String × String) × Int))
      (acc : List ((String × String) × Int) × List ((String × String) × Int)
        × List ((String × String) × Int) × List ((String × String) × Int)),
      (∀ x ∈ l, x ∈ ps) →
      (∀ x ∈ acc.2.1, x ∈ ps ∧ strStartsWith x.1.2 side2FeaPre = true) →
      (∀ x ∈ acc.2.2.1, x ∈ ps ∧ strStartsWith x.1.1 side1FeaPre = true) →
      (∀ x ∈ (l.foldl bucketizeStep acc).2.1, x ∈ ps ∧ strStartsWith x.1.2 side2FeaPre = true)
      ∧ (∀ x ∈ (l.foldl bucketizeStep acc).2.2.1,
          x ∈ ps ∧ strStartsWith x.1.1 side1FeaPre = true)
  | [], _, _, h2, h3 => ⟨h2, h3⟩
  | e :: l, acc, hl, h2, h3 => by
    rw [List.foldl_cons]
    obtain ⟨h2', h3'⟩ := bucketizeStep_sound (hl e (List.mem_cons_self _ _)) h2 h3
    exact bucketize_fold_sound ps l _ (fun x hx => hl x (List.mem_cons_of_mem _ hx)) h2' h3'

/-- One `bucketizeStep` only ever grows the key set of the first bucket. -/
theorem keys1_bucketizeStep_mono
    {acc : List ((String × String) × Int) × List ((String × String) × Int)
      × List ((String × String) × Int) × List ((String × String) × Int)}
    {e : (String × String) × Int} {k : String × String}
    (h : k ∈ dictKeys acc.1) : k ∈ dictKeys (bucketizeStep acc e).1 := by
  obtain ⟨gg, gG, Gg, GG⟩ := acc
  simp only [bucketizeStep]
  split
  · exact h
  split
  · exact h
  split
  · exact h
  · exact (mem_keys_dictInsert _ _ _ _).2 (Or.inr h)

/-- An unprefixed pair of the processed list ends up as a key of the
glyph,glyph bucket. -/
theorem bucketize_fold_gg_complete (a b : String) (w : Int)
    (hpre1 : strStartsWith a side1FeaPre = false)
    (hpre2 : strStartsWith b side2FeaPre = false) :
    ∀ (l : List ((String × String) × Int))
      (acc : List ((String × String) × Int) × List ((String × String) × Int)
        × List ((String × String) × Int) × List ((String × String) × Int)),
      ((a, b), w) ∈ l ∨ (a, b) ∈ dictKeys acc.1 →
      (a, b) ∈ dictKeys (l.foldl bucketizeStep acc).1
  | [], _, h => by
    rcases h with h | h
    · cases h
    · exact h
  | e :: l, acc, h => by
    rw [List.foldl_cons]
    rcases h with h | h
    · rcases List.mem_cons.1 h with rfl | h
      · apply bucketize_fold_gg_complete a b w hpre1 hpre2 l
        right
        obtain ⟨gg, gG, Gg, GG⟩ := acc
        simp only [bucketizeStep]
        rw [if_neg (by rw [hpre1]; simp), if_neg (by rw [hpre1]; simp),
          if_neg (by rw [hpre2]; simp)]
        exact (mem_keys_dictInsert _ _ _ _).2 (Or.inl rfl)
      · exact bucketize_fold_gg_complete a b w hpre1 hpre2 l _ (Or.inl h)
    · exact bucketize_fold_gg_complete a b w hpre1 hpre2 l _
        (Or.inr (keys1_bucketizeStep_mono h))

/-- Invariant of the glyph,group decomposition loop: a fixed set `S` below
the running `allGlyphGlyph` set stays below it, and every decomposed entry
keeps members disjoint from `S` and carries the value of one of the
collected pairs (with a class name on side 2). -/
theorem decomposeGlyphGroup_inv (st : Writer) (ps : List ((String × String) × Int))
    (S : List (String × String)) :
    ∀ (l : List ((String × String) × Int)) (allGG : List (String × String))
      (dec : List ((String × List String) × Int)) (gG : List ((String × String) × Int))
      (out : List (String × String) × List ((String × List String) × Int)
        × List ((String × String) × Int)),
      decomposeGlyphGroup st allGG dec gG l = some out →
      (∀ x ∈ l, x ∈ ps ∧ strStartsWith x.1.2 side2FeaPre = true) →
      (∀ p ∈ S, p ∈ allGG) →
      (∀ e ∈ dec, (∀ g ∈ e.1.2, (e.1.1, g) ∉ S)
        ∧ ∃ s2, ((e.1.1, s2), e.2) ∈ ps ∧ strStartsWith s2 side2FeaPre = true) →
      (∀ p ∈ S, p ∈ out.1)
      ∧ (∀ e ∈ out.2.1, (∀ g ∈ e.1.2, (e.1.1, g) ∉ S)
        ∧ ∃ s2, ((e.1.1, s2), e.2) ∈ ps ∧ strStartsWith s2 side2FeaPre = true)
  | [], allGG, dec, gG, out, h, _, hS, hdec => by
    rw [decomposeGlyphGroup] at h
    obtain rfl := Option.some.inj h
    exact ⟨hS, hdec⟩
  | ((side1, side2), value) :: rest, allGG, dec, gG, out, h, hl, hS, hdec => by
    rw [decomposeGlyphGroup] at h
    split at h
    · cases hlk : st.side2Groups.lookup side2 with
      | none => rw [hlk] at h; cases h
      | some members =>
        rw [hlk] at h
        refine decomposeGlyphGroup_inv st ps S rest _ _ _ out h
          (fun x hx => hl x (List.mem_cons_of_mem _ hx))
          (fun p hp => List.mem_append_left _ (hS p hp)) ?_
        intro e he
        rcases mem_dictInsert he with rfl | he'
        · constructor
          · intro g hg
            rw [List.mem_filter] at hg
            have hgn := hg.2
            simp only [decide_eq_true_eq] at hgn
            exact fun hgS => hgn (hS _ hgS)
          · exact ⟨side2, (hl _ (List.mem_cons_self _ _)).1,
              (hl _ (List.mem_cons_self _ _)).2⟩
        · exact hdec e he'
    · exact decomposeGlyphGroup_inv st ps S rest _ _ _ out h
        (fun x hx => hl x (List.mem_cons_of_mem _ hx)) hS hdec

/-- Invariant of the group,glyph decomposition loop (symmetric). -/
theorem decomposeGroupGlyph_inv (st : Writer) (ps : List ((String × String) × Int))
    (ggKeys : List (String × String)) (S : List (String × String)) :
    ∀ (l : List ((String × String) × Int)) (allGG : List (String × String))
      (dec : List ((List String × String) × Int)) (Gg : List ((String × String) × Int))
      (out : List (String × String) × List ((List String × String) × Int)
        × List ((String × String) × Int)),
      decomposeGroupGlyph st ggKeys allGG dec Gg l = some out →
      (∀ x ∈ l, x ∈ ps ∧ strStartsWith x.1.1 side1FeaPre = true) →
      (∀ p ∈ S, p ∈ allGG) →
      (∀ e ∈ dec, (∀ g ∈ e.1.1, (g, e.1.2) ∉ S)
        ∧ ∃ s1, ((s1, e.1.2), e.2) ∈ ps ∧ strStartsWith s1 side1FeaPre = true) →
      (∀ p ∈ S, p ∈ out.1)
      ∧ (∀ e ∈ out.2.1, (∀ g ∈ e.1.1, (g, e.1.2) ∉ S)
        ∧ ∃ s1, ((s1, e.1.2), e.2) ∈ ps ∧ strStartsWith s1 side1FeaPre = true)
  | [], allGG, dec, Gg, out, h, _, hS, hdec => by
    rw [decomposeGroupGlyph] at h
    obtain rfl := Option.some.inj h
    exact ⟨hS, hdec⟩
  | ((side1, side2), value) :: rest, allGG, dec, Gg, out, h, hl, hS, hdec => by
    rw [decomposeGroupGlyph] at h
    split at h
    · cases hlk : st.side1Groups.lookup side1 with
      | none => rw [hlk] at h; cases h
      | some members =>
        rw [hlk] at h
        refine decomposeGroupGlyph_inv st ps ggKeys S rest _ _ _ out h
          (fun x hx => hl x (List.mem_cons_of_mem _ hx))
          (fun p hp => List.mem_append_left _ (hS p hp)) ?_
        intro e he
        rcases mem_dictInsert he with rfl | he'
        · constructor
          · intro g hg
            rw [List.mem_filter] at hg
            have hgn := hg.2
            simp only [decide_eq_true_eq] at hgn
            exact fun hgS => hgn.2 (hS _ hgS)
          · exact ⟨side1, (hl _ (List.mem_cons_self _ _)).1,
              (hl _ (List.mem_cons_self _ _)).2⟩
        · exact hdec e he'
    · exact decomposeGroupGlyph_inv st ps ggKeys S rest _ _ _ out h
        (fun x hx => hl x (List.mem_cons_of_mem _ hx)) hS hdec

/-- Soundness of `getSeparatedPairs`: every decomposed entry's member list
avoids the keys of the glyph,glyph bucket, and carries the value of one of
the collected class pairs. -/
theorem getSeparatedPairs_sound (st : Writer) (ps : List ((String × String) × Int))
    (bk : Buckets) (h : getSeparatedPairs st ps = some bk) :
    (∀ e ∈ bk.glyphGroupDecomposed,
      (∀ g ∈ e.1.2, (e.1.1, g) ∉ dictKeys (bucketize ps).1)
      ∧ ∃ s2, ((e.1.1, s2), e.2) ∈ ps ∧ strStartsWith s2 side2FeaPre = true)
    ∧ (∀ e ∈ bk.groupGlyphDecomposed,
      (∀ g ∈ e.1.1, (g, e.1.2) ∉ dictKeys (bucketize ps).1)
      ∧ ∃ s1, ((s1, e.1.2), e.2) ∈ ps ∧ strStartsWith s1 side1FeaPre = true) := by
  rw [getSeparatedPairs] at h
  rcases hb : bucketize ps with ⟨gg, gG, Gg, GG⟩
  rw [hb] at h
  simp only at h
  have hsound := bucketize_fold_sound ps ps ([], [], [], [])
    (fun x hx => hx) (by intro x hx; cases hx) (by intro x hx; cases hx)
  rw [show ps.foldl bucketizeStep ([], [], [], []) = bucketize ps from rfl, hb] at hsound
  cases h2 : decomposeGlyphGroup st (dictKeys gg) [] gG gG with
  | none => rw [h2] at h; cases h
  | some r2 =>
    rw [h2] at h
    obtain ⟨allGG1, gGdec, gG'⟩ := r2
    simp only at h
    cases h3 : decomposeGroupGlyph st (dictKeys gg) allGG1 [] Gg Gg with
    | none => rw [h3] at h; cases h
    | some r3 =>
      rw [h3] at h
      obtain ⟨allGG2, Ggdec, Gg'⟩ := r3
      simp only at h
      obtain rfl := Option.some.inj h
      have hinv1 := decomposeGlyphGroup_inv st ps (dictKeys gg) gG (dictKeys gg) [] gG
        (allGG1, gGdec, gG') h2 hsound.1 (fun p hp => hp) (by intro e he; cases he)
      have hinv2 := decomposeGroupGlyph_inv st ps (dictKeys gg) (dictKeys gg) Gg allGG1 [] Gg
        (allGG2, Ggdec, Gg') h3 hsound.2 hinv1.1 (by intro e he; cases he)
      exact ⟨hinv1.2, hinv2.2⟩

/-- C5: a group member that already has an explicit glyph,glyph pair with
the same opposite-side glyph among the collected pairs is excluded from the
decomposed enumeration (the glyph,glyph bucket collects exactly the pairs
with no class name on either side, and `allGlyphGlyph` starts from its
keys). -/
theorem claim5_covered_members_excluded (st : Writer)
    (ps : List ((String × String) × Int)) (bk : Buckets)
    (h : getSeparatedPairs st ps = some bk) :
    (∀ s1 t v, ((s1, t), v) ∈ bk.glyphGroupDecomposed →
      ∀ g w, ((s1, g), w) ∈ ps → strStartsWith s1 side1FeaPre = false →
        strStartsWith g side2FeaPre = false → g ∉ t)
    ∧ (∀ t s2 v, ((t, s2), v) ∈ bk.groupGlyphDecomposed →
      ∀ g w, ((g, s2), w) ∈ ps → strStartsWith g side1FeaPre = false →
        strStartsWith s2 side2FeaPre = false → g ∉ t) := by
  obtain ⟨hgG, hGg⟩ := getSeparatedPairs_sound st ps bk h
  constructor
  · intro s1 t v hmem g w hpair hp1 hp2 hgt
    have hkey : (s1, g) ∈ dictKeys (bucketize ps).1 := by
      rw [show (bucketize ps).1 = (ps.foldl bucketizeStep ([], [], [], [])).1 from rfl]
      exact bucketize_fold_gg_complete s1 g w hp1 hp2 ps ([], [], [], []) (Or.inl hpair)
    exact ((hgG _ hmem).1 g hgt) hkey
  · intro t s2 v hmem g w hpair hp1 hp2 hgt
    have hkey : (g, s2) ∈ dictKeys (bucketize ps).1 := by
      rw [show (bucketize ps).1 = (ps.foldl bucketizeStep ([], [], [], [])).1 from rfl]
      exact bucketize_fold_gg_complete g s2 w hp1 hp2 ps ([], [], [], []) (Or.inl hpair)
    exact ((hGg _ hmem).1 g hgt) hkey

/-- C5 witness: in `wState`, the pair (`a`, `@kern2.G`) decomposes to the
member list `[c]`, and the member `b` — covered by the explicit (`a`,`b`)
pair — is indeed excluded. -/
theorem claim5_witness : "b" ∉ (["c"] : List String) :=
  (claim5_covered_members_excluded wState wState.pairs wBuckets (by decide)).1
    "a" ["c"] 7 (by decide) "b" 5 (by decide) (by decide) (by decide)

/-- C8: every decomposed entry carries exactly the kerning value of one of
the collected class pairs with the same glyph side: decomposition changes
the key shape only, never the value. -/
theorem claim8_decomposition_keeps_value (st : Writer)
    (ps : List ((String × String) × Int)) (bk : Buckets)
    (h : getSeparatedPairs st ps = some bk) :
    (∀ s1 t v, ((s1, t), v) ∈ bk.glyphGroupDecomposed →
      ∃ s2, ((s1, s2), v) ∈ ps ∧ strStartsWith s2 side2FeaPre = true)
    ∧ (∀ t s2 v, ((t, s2), v) ∈ bk.groupGlyphDecomposed →
      ∃ s1, ((s1, s2), v) ∈ ps ∧ strStartsWith s1 side1FeaPre = true) := by
  obtain ⟨hgG, hGg⟩ := getSeparatedPairs_sound st ps bk h
  exact ⟨fun s1 t v hmem => (hgG _ hmem).2, fun t s2 v hmem => (hGg _ hmem).2⟩

/-- C8 witness: the decomposed entry ((`a`, `[c]`), 7) of `wState` carries
the value 7 of the original class pair (`a`, `@kern2.G`). -/
theorem claim8_witness :
    ∃ s2, (("a", s2), (7 : Int)) ∈ wState.pairs ∧ strStartsWith s2 side2FeaPre = true :=
  (claim8_decomposition_keeps_value wState wState.pairs wBuckets (by decide)).1
    "a" ["c"] 7 (by decide)

end Ufo2Fdk
